import Mathlib

/-
  Verification of the pathbufd crate (src/lib.rs): a thin wrapper
  `pub struct PathBufD(PathBuf)` around the standard library path buffer.
  Every method of the wrapper delegates to `std::path::PathBuf` / `OsString`,
  so this development embeds the Unix (`cfg(unix)`) semantics of those
  delegates: a path is its byte content, modelled here as a `List Char`
  (the embedding covers UTF-8 representable content; on Unix the separator
  test is `b == b'/'`, `Prefix` components do not exist, and
  `is_absolute = has_root`).
-/

/-- One parsed path component, as produced by `std::path::Components` on Unix
(`Prefix` components do not exist on Unix). -/
inductive Component where
  | rootDir
  | curDir
  | parentDir
  | normal (s : List Char)
  deriving DecidableEq, Repr

/-- The wrapper type from src/lib.rs line 12: `pub struct PathBufD(PathBuf)`.
`inner` is the byte content of the wrapped `PathBuf` (its `OsString`),
modelled as UTF-8 characters. Equality is structural, as in the derived
`PartialEq`/`Eq` of the source, which compares the wrapped bytes. -/
structure PathBufD where
  inner : List Char
  deriving DecidableEq, Repr

/-- Unix `is_sep_byte`: a separator is exactly the forward slash. -/
def isSep (c : Char) : Bool := c == '/'

/-- Unix `Path::has_root` (equal to `is_absolute` on Unix): the first byte is
a separator. -/
def hasRoot : List Char → Bool
  | [] => false
  | c :: _ => isSep c

/-- `Components::include_cur_dir`: the path begins with a literal `.`
followed by nothing or a separator. (A path whose first byte is `.` never
has a root, so the source's early `has_root` return is implied.) -/
def includeCurDir : List Char → Bool
  | ['.'] => true
  | '.' :: c :: _ => isSep c
  | _ => false

/-- `Components::len_before_body` on Unix: one byte for the physical root
plus one byte for a front `.` component (no prefixes on Unix). -/
def lenBeforeBody (s : List Char) : Nat :=
  (if hasRoot s then 1 else 0) + (if includeCurDir s then 1 else 0)

/-- `Components::parse_single_component` on Unix: `.` and the empty chunk
normalize away, `..` is the parent component, everything else is a normal
component. -/
def parseSingleComponent : List Char → Option Component
  | [] => none
  | ['.'] => none
  | ['.', '.'] => some .parentDir
  | comp => some (.normal comp)

/-- Index of the last separator in a chunk (the `rposition` used by
`parse_next_component_back`). -/
def rfindSep : List Char → Option Nat
  | [] => none
  | c :: rest =>
    match rfindSep rest with
    | some i => some (i + 1)
    | none => if isSep c then some 0 else none

/-- `Components::parse_next_component_back`: the body is everything after
`len_before_body`; the returned size counts the component's bytes plus the
separator in front of it when there is one. -/
def parseNextComponentBack (s : List Char) : Nat × Option Component :=
  match rfindSep (s.drop (lenBeforeBody s)) with
  | none => ((s.drop (lenBeforeBody s)).length,
      parseSingleComponent (s.drop (lenBeforeBody s)))
  | some i => ((s.drop (lenBeforeBody s)).length - i,
      parseSingleComponent ((s.drop (lenBeforeBody s)).drop (i + 1)))

/-- `Components::next_back` starting from the `Body` state, specialised to
Unix: consume components from the back (skipping chunks that normalize
away), then in the `StartDir` state emit the root or the front `.`
component. The fuel is an upper bound on the number of skipped chunks; each
skip removes at least one byte, so fuel equal to the length suffices. -/
def nextBackAux : Nat → List Char → List Char × Option Component
  | 0, s => (s, none)
  | fuel + 1, s =>
    if lenBeforeBody s < s.length then
      match parseNextComponentBack s with
      | (size, some c) => (s.take (s.length - size), some c)
      | (size, none) => nextBackAux fuel (s.take (s.length - size))
    else if hasRoot s then (s.take (s.length - 1), some .rootDir)
    else if includeCurDir s then (s.take (s.length - 1), some .curDir)
    else (s, none)

/-- `Components::trim_right`: drop trailing chunks that normalize away, stop
at the first real component from the back. Fuel as in `nextBackAux`. -/
def trimRightAux : Nat → List Char → List Char
  | 0, s => s
  | fuel + 1, s =>
    if lenBeforeBody s < s.length then
      match parseNextComponentBack s with
      | (_, some _) => s
      | (size, none) => trimRightAux fuel (s.take (s.length - size))
    else s

/-- `trim_right` with sufficient fuel. -/
def trimRight (s : List Char) : List Char := trimRightAux s.length s

/-- `Path::parent` on Unix: take one component off the back; if it is a
normal, `.` or `..` component the parent is the remaining slice rendered by
`Components::as_path` (which trims the right only while the back iterator is
still in the `Body` state - a front `.` component is returned from the
`StartDir` state, after which nothing is trimmed); a root component or an
exhausted iterator means there is no parent. -/
def parent (s : List Char) : Option (List Char) :=
  match nextBackAux s.length s with
  | (s', some (.normal _)) => some (trimRight s')
  | (s', some .parentDir) => some (trimRight s')
  | (s', some .curDir) => some s'
  | _ => none

/-- `PathBuf::push` on Unix (src/lib.rs lines 41-46 delegate to it):
an absolute path replaces the buffer; otherwise a separator is inserted
when the buffer is nonempty and does not already end in one, and the path
is appended. -/
def needSep (buf : List Char) : Bool :=
  match buf.getLast? with
  | some c => !(isSep c)
  | none => false

/-- The byte-level body of `PathBuf::push` on Unix (`PathBuf::_push` with
`is_absolute = has_root` and no prefixes). -/
def pushRaw (buf s : List Char) : List Char :=
  if hasRoot s then s
  else if needSep buf then buf ++ '/' :: s
  else buf ++ s

/-- src/lib.rs `PathBufD::new`: the empty buffer. -/
def PathBufD.new : PathBufD := ⟨[]⟩

/-- src/lib.rs `PathBufD::push`: delegates to `PathBuf::push`. Total: no
error return. -/
def PathBufD.push (p : PathBufD) (s : List Char) : PathBufD :=
  ⟨pushRaw p.inner s⟩

/-- src/lib.rs `PathBufD::join`: `Self(self.0.join(path))`, and
`Path::join` clones `self` and pushes onto the clone. In this pure
embedding the clone is implicit, so `join` is the same function as
`push` seen as a value-producing operation. -/
def PathBufD.join (p : PathBufD) (s : List Char) : PathBufD :=
  ⟨pushRaw p.inner s⟩

/-- src/lib.rs `PathBufD::pop`: delegates to `PathBuf::pop`, which
truncates the buffer to the byte length of `Path::parent` when a parent
exists and reports whether anything was done. -/
def PathBufD.pop (p : PathBufD) : Bool × PathBufD :=
  match parent p.inner with
  | some t => (true, ⟨p.inner.take t.length⟩)
  | none => (false, p)

/-- src/lib.rs lines 156-167 `PathBufD::extend`: the loop
`for path in paths { buf.push(path) }` over the consumed receiver. -/
def PathBufD.extend : PathBufD → List (List Char) → PathBufD
  | p, [] => p
  | p, x :: xs => PathBufD.extend (p.push x) xs

/-- `Path::to_str` in the UTF-8 fragment modelled here: always succeeds with
the content itself (non-UTF-8 `OsString` content is outside this model). -/
def toStr (p : PathBufD) : Option (List Char) := some p.inner

/-- The `Display` impl (src/lib.rs lines 176-180):
`self.0.to_str().unwrap_or("")`. -/
def display (p : PathBufD) : List Char := (toStr p).getD []

/-- The derived `Serialize` (src/lib.rs line 11) delegates to `PathBuf`'s
serializer, which emits the `to_str` rendering as a single string and fails
when the content is not valid UTF-8 (never reached in this UTF-8 model). -/
def serialize (p : PathBufD) : Option (List Char) := toStr p

/-- The derived `Deserialize` delegates to `PathBuf`'s deserializer, which
reads a string and takes its bytes verbatim as the buffer content. -/
def deserialize (s : List Char) : PathBufD := ⟨s⟩

/-- src/lib.rs lines 26-28 `PathBufD::current`:
`current_dir().unwrap_or(PathBuf::new())`. The outcome of the one OS query
is the explicit argument `cwd`; the error payload type is abstract. -/
def current {ε : Type} (cwd : Except ε (List Char)) : PathBufD :=
  match cwd with
  | .ok d => ⟨d⟩
  | .error _ => PathBufD.new

/-- Rust `str::split` on the literal `"/"`: consecutive separators give
empty chunks, and the empty string gives the single chunk `[]`. -/
def splitSlash : List Char → List (List Char)
  | [] => [[]]
  | c :: rest =>
    if isSep c then [] :: splitSlash rest
    else
      match splitSlash rest with
      | r :: rs => (c :: r) :: rs
      | [] => [[c]]

/-- src/lib.rs lines 202-220 `pathbufd_fmt` applied to the already-rendered
string (the `Arguments` rendering happens upstream): split on `/`, push
`"/"` for an empty chunk and the chunk itself otherwise, starting from the
empty buffer. -/
def pathbufd_fmt (s : List Char) : PathBufD :=
  (splitSlash s).foldl
    (fun buf chunk => if chunk = [] then buf.push ['/'] else buf.push chunk)
    PathBufD.new

/-- The full component list of a Unix path, as produced by iterating
`std::path::Components` front to back: the optional root, the optional
front `.` component, then every chunk that `parse_single_component` keeps. -/
def componentsOf (s : List Char) : List Component :=
  (if hasRoot s then [Component.rootDir]
   else if includeCurDir s then [Component.curDir]
   else []) ++ (splitSlash s).filterMap parseSingleComponent

/-- The recoverable error of the `try_reserve*` family
(`std::collections::TryReserveError`, the spec's `CapacityError`). -/
inductive TryReserveError where
  | capacityOverflow
  | allocError
  deriving DecidableEq, Repr

/-- The wrapped `OsString` storage with its allocation explicit: the byte
content together with the allocated capacity. Used for the capacity
operations of src/lib.rs, which the content-only model `PathBufD` erases. -/
structure PathBufCap where
  content : List Char
  cap : Nat
  deriving DecidableEq, Repr

/-- src/lib.rs lines 102-104 `PathBufD::capacity`: the capacity of the
underlying `OsString`. -/
def PathBufCap.capacity (p : PathBufCap) : Nat := p.cap

/-- src/lib.rs lines 109-111 `PathBufD::clear`: `OsString::clear`, which
truncates the content to zero bytes and keeps the allocation. -/
def PathBufCap.clear (p : PathBufCap) : PathBufCap := { p with content := [] }

/-- src/lib.rs lines 31-33 `PathBufD::as_path`, read on the capacity model:
the borrowed view is the byte content. -/
def PathBufCap.as_path (p : PathBufCap) : List Char := p.content

/-- src/lib.rs lines 123-125 `PathBufD::try_reserve`, delegating to
`OsString::try_reserve` (ultimately `Vec::try_reserve`): nothing happens
when the spare capacity already covers `additional`; otherwise the
allocator - the explicit oracle `alloc`, mapping a requested capacity to a
granted capacity or to failure - is asked for the amortized-grown buffer,
and failure surfaces as the recoverable error. -/
def PathBufCap.try_reserve (p : PathBufCap) (additional : Nat)
    (alloc : Nat → Option Nat) : Except TryReserveError PathBufCap :=
  if p.content.length + additional ≤ p.cap then .ok p
  else
    match alloc (max (p.content.length + additional) (2 * p.cap)) with
    | some newCap => .ok { p with cap := newCap }
    | none => .error .allocError

/-- src/lib.rs lines 137-139 `PathBufD::try_reserve_exact`, delegating to
`OsString::try_reserve_exact`: as `try_reserve` but requesting exactly the
needed capacity. -/
def PathBufCap.try_reserve_exact (p : PathBufCap) (additional : Nat)
    (alloc : Nat → Option Nat) : Except TryReserveError PathBufCap :=
  if p.content.length + additional ≤ p.cap then .ok p
  else
    match alloc (p.content.length + additional) with
    | some newCap => .ok { p with cap := newCap }
    | none => .error .allocError

/-- A found separator index lies inside the chunk. -/
theorem rfindSep_lt_length (l : List Char) (i : Nat) (h : rfindSep l = some i) :
    i < l.length := by
  induction l generalizing i with
  | nil => simp [rfindSep] at h
  | cons c rest ih =>
    cases hr : rfindSep rest with
    | some j =>
      simp only [rfindSep, hr, Option.some.injEq] at h
      subst h
      simpa using ih j hr
    | none =>
      simp only [rfindSep, hr] at h
      split at h
      · simp only [Option.some.injEq] at h
        subst h
        simp
      · exact Option.noConfusion h

/-- The size consumed by one back-parse is at least one byte and at most the
whole path, provided the body is nonempty. -/
theorem parseNextComponentBack_size (s : List Char)
    (h : lenBeforeBody s < s.length) (size : Nat) (c : Option Component)
    (hp : parseNextComponentBack s = (size, c)) :
    1 ≤ size ∧ size ≤ s.length := by
  have hb : (s.drop (lenBeforeBody s)).length = s.length - lenBeforeBody s :=
    List.length_drop _ _
  unfold parseNextComponentBack at hp
  cases hr : rfindSep (s.drop (lenBeforeBody s)) with
  | none =>
    rw [hr] at hp
    simp only [Prod.mk.injEq] at hp
    obtain ⟨h1, -⟩ := hp
    omega
  | some i =>
    have hi := rfindSep_lt_length _ _ hr
    rw [hr] at hp
    simp only [Prod.mk.injEq] at hp
    obtain ⟨h1, -⟩ := hp
    omega

/-- The remaining slice of a backwards component walk is a prefix of the
input. -/
theorem nextBackAux_append (fuel : Nat) :
    ∀ s : List Char, ∃ u, (nextBackAux fuel s).1 ++ u = s := by
  induction fuel with
  | zero => intro s; exact ⟨[], List.append_nil s⟩
  | succ fuel ih =>
    intro s
    by_cases hlt : lenBeforeBody s < s.length
    · rcases hp : parseNextComponentBack s with ⟨size, c⟩
      cases c with
      | some c0 =>
        refine ⟨s.drop (s.length - size), ?_⟩
        simp [nextBackAux, hlt, hp, List.take_append_drop]
      | none =>
        obtain ⟨u, hu⟩ := ih (s.take (s.length - size))
        refine ⟨u ++ s.drop (s.length - size), ?_⟩
        have hrw : nextBackAux (fuel + 1) s =
            nextBackAux fuel (s.take (s.length - size)) := by
          simp [nextBackAux, hlt, hp]
        rw [hrw, ← List.append_assoc, hu, List.take_append_drop]
    · by_cases hroot : hasRoot s
      · refine ⟨s.drop (s.length - 1), ?_⟩
        simp [nextBackAux, hlt, hroot, List.take_append_drop]
      · by_cases hcur : includeCurDir s
        · refine ⟨s.drop (s.length - 1), ?_⟩
          simp [nextBackAux, hlt, hroot, hcur, List.take_append_drop]
        · exact ⟨[], by simp [nextBackAux, hlt, hroot, hcur]⟩

/-- When the backwards walk returns a component, the remaining slice is
strictly shorter than the input. -/
theorem nextBackAux_lt (fuel : Nat) :
    ∀ (s s' : List Char) (c : Component),
      nextBackAux fuel s = (s', some c) → s'.length < s.length := by
  induction fuel with
  | zero => intro s s' c h; simp [nextBackAux] at h
  | succ fuel ih =>
    intro s s' c h
    by_cases hlt : lenBeforeBody s < s.length
    · rcases hp : parseNextComponentBack s with ⟨size, c1⟩
      have hsize := parseNextComponentBack_size s hlt size c1 hp
      cases c1 with
      | some c0 =>
        simp only [nextBackAux, if_pos hlt, hp, Prod.mk.injEq] at h
        obtain ⟨h1, -⟩ := h
        subst h1
        have hlen : (s.take (s.length - size)).length =
            min (s.length - size) s.length := List.length_take _ _
        omega
      | none =>
        simp only [nextBackAux, if_pos hlt, hp] at h
        have h2 := ih _ _ _ h
        have hlen : (s.take (s.length - size)).length =
            min (s.length - size) s.length := List.length_take _ _
        omega
    · have hpos : hasRoot s = true ∨ includeCurDir s = true → 0 < s.length := by
        intro hor
        cases s with
        | nil =>
          rcases hor with h1 | h1
          · simp [hasRoot] at h1
          · simp [includeCurDir] at h1
        | cons a t => simp
      by_cases hroot : hasRoot s
      · simp only [nextBackAux, if_neg hlt, if_pos hroot, Prod.mk.injEq] at h
        obtain ⟨h1, -⟩ := h
        subst h1
        have hlen : (s.take (s.length - 1)).length =
            min (s.length - 1) s.length := List.length_take _ _
        have := hpos (Or.inl hroot)
        omega
      · by_cases hcur : includeCurDir s
        · simp only [nextBackAux, if_neg hlt, if_neg hroot, if_pos hcur,
            Prod.mk.injEq] at h
          obtain ⟨h1, -⟩ := h
          subst h1
          have hlen : (s.take (s.length - 1)).length =
              min (s.length - 1) s.length := List.length_take _ _
          have := hpos (Or.inr hcur)
          omega
        · simp [nextBackAux, hlt, hroot, hcur] at h

/-- Right-trimming returns a prefix of its input. -/
theorem trimRightAux_append (fuel : Nat) :
    ∀ s : List Char, ∃ u, trimRightAux fuel s ++ u = s := by
  induction fuel with
  | zero => intro s; exact ⟨[], List.append_nil s⟩
  | succ fuel ih =>
    intro s
    by_cases hlt : lenBeforeBody s < s.length
    · rcases hp : parseNextComponentBack s with ⟨size, c⟩
      cases c with
      | some c0 => exact ⟨[], by simp [trimRightAux, hlt, hp]⟩
      | none =>
        obtain ⟨u, hu⟩ := ih (s.take (s.length - size))
        refine ⟨u ++ s.drop (s.length - size), ?_⟩
        have hrw : trimRightAux (fuel + 1) s =
            trimRightAux fuel (s.take (s.length - size)) := by
          simp [trimRightAux, hlt, hp]
        rw [hrw, ← List.append_assoc, hu, List.take_append_drop]
    · exact ⟨[], by simp [trimRightAux, hlt]⟩

/-- A list is recovered from a witnessed decomposition by taking its own
length. -/
theorem append_eq_take (t u s : List Char) (h : t ++ u = s) :
    s.take t.length = t := by
  subst h
  exact List.take_left t u

/-- A witnessed decomposition bounds the length of the left part. -/
theorem append_eq_length_le (t u s : List Char) (h : t ++ u = s) :
    t.length ≤ s.length := by
  subst h
  simp

/-- The parent of a Unix path is a strictly shorter prefix of it. -/
theorem parent_spec (s t : List Char) (h : parent s = some t) :
    (∃ u, t ++ u = s) ∧ t.length < s.length := by
  unfold parent at h
  rcases hnb : nextBackAux s.length s with ⟨s', c⟩
  rw [hnb] at h
  have hpref : ∃ u, s' ++ u = s := by
    have := nextBackAux_append s.length s
    rw [hnb] at this
    exact this
  cases c with
  | none => simp at h
  | some c0 =>
    have hlt : s'.length < s.length := nextBackAux_lt s.length s s' c0 hnb
    have htrim : ∀ ht : trimRight s' = t,
        (∃ u, t ++ u = s) ∧ t.length < s.length := by
      intro ht
      obtain ⟨u1, hu1⟩ := trimRightAux_append s'.length s'
      rw [show trimRightAux s'.length s' = trimRight s' from rfl, ht] at hu1
      obtain ⟨u2, hu2⟩ := hpref
      constructor
      · exact ⟨u1 ++ u2, by rw [← List.append_assoc, hu1, hu2]⟩
      · have := append_eq_length_le _ _ _ hu1
        omega
    cases c0 with
    | rootDir => simp at h
    | curDir =>
      simp only [Option.some.injEq] at h
      subst h
      exact ⟨hpref, hlt⟩
    | parentDir =>
      simp only [Option.some.injEq] at h
      exact htrim h
    | normal seg =>
      simp only [Option.some.injEq] at h
      exact htrim h

/-- C1: for every PathBufD value p, deserializing the result of serializing
p yields a value equal to p (serialize-then-deserialize is the identity on
PathBufD values; serialization emits the display string and fails only on
non-UTF-8 content, which is outside this UTF-8 model). -/
theorem claim_C1 (p : PathBufD) (s : List Char) (h : serialize p = some s) :
    deserialize s = p := by
  simp only [serialize, toStr, Option.some.injEq] at h
  subst h
  rfl

/-- Witness for C1 at the concrete buffer "a". -/
theorem claim_C1_witness :
    serialize ⟨['a']⟩ = some ['a'] ∧ deserialize ['a'] = ⟨['a']⟩ :=
  ⟨rfl, claim_C1 ⟨['a']⟩ ['a'] rfl⟩

/-- C2: push follows the native (Unix) joining rule: an absolute segment
replaces the buffer's content, a relative segment is appended with a
separator implied exactly when the buffer is nonempty and does not already
end in one; push is total, so it never returns an error. -/
theorem claim_C2 (p : PathBufD) (s : List Char) :
    (hasRoot s = true → PathBufD.push p s = ⟨s⟩) ∧
    (hasRoot s = false →
      PathBufD.push p s =
        ⟨p.inner ++ (if needSep p.inner then ['/'] else []) ++ s⟩) := by
  constructor
  · intro h
    simp [PathBufD.push, pushRaw, h]
  · intro h
    by_cases hn : needSep p.inner
    · simp [PathBufD.push, pushRaw, h, hn]
    · simp [PathBufD.push, pushRaw, h, hn]

/-- Witness for C2: an absolute segment replaces "a", a relative one is
appended to "a" with the implied separator. -/
theorem claim_C2_witness :
    PathBufD.push ⟨['a']⟩ ['/', 'b'] = ⟨['/', 'b']⟩ ∧
    PathBufD.push ⟨['a']⟩ ['b'] =
      ⟨['a'] ++ (if needSep ['a'] then ['/'] else []) ++ ['b']⟩ :=
  ⟨(claim_C2 ⟨['a']⟩ ['/', 'b']).1 (by decide),
   (claim_C2 ⟨['a']⟩ ['b']).2 (by decide)⟩

/-- Refutation of C3 as stated: the buffer built from "a//b" does not
contain the segment a at all (the root-marker push replaced the buffer), so
it does not contain the segments a, root-marker, b in that order. -/
theorem claim_C3_counterexample :
    Component.normal ['a'] ∉
      componentsOf (pathbufd_fmt ['a', '/', '/', 'b']).inner := by decide

/-- C3 amended: building from "a//b" pushes a, the root-marker, and b in
that order, but the root-marker push is absolute and replaces the buffer,
so the resulting buffer is "/b", containing the segments root-marker, b. -/
theorem claim_C3 :
    pathbufd_fmt ['a', '/', '/', 'b'] = ⟨['/', 'b']⟩ ∧
    componentsOf (pathbufd_fmt ['a', '/', '/', 'b']).inner =
      [Component.rootDir, Component.normal ['b']] := by decide

/-- C4: building from "/usr/local/bin" yields a buffer displaying exactly
"/usr/local/bin", and building from the empty string yields a buffer
containing only the root marker "/". -/
theorem claim_C4 :
    display (pathbufd_fmt
        ['/', 'u', 's', 'r', '/', 'l', 'o', 'c', 'a', 'l', '/', 'b', 'i', 'n']) =
      ['/', 'u', 's', 'r', '/', 'l', 'o', 'c', 'a', 'l', '/', 'b', 'i', 'n'] ∧
    pathbufd_fmt [] = ⟨['/']⟩ := by decide

/-- C5: pop returns false and leaves the buffer byte-identical when there is
no parent (in particular on the root "/" and on the empty buffer);
otherwise it returns true and truncates the buffer to its strictly shorter
parent. -/
theorem claim_C5 (p : PathBufD) :
    (parent p.inner = none → PathBufD.pop p = (false, p)) ∧
    (∀ t, parent p.inner = some t →
      PathBufD.pop p = (true, ⟨t⟩) ∧ t.length < p.inner.length) ∧
    parent ([] : List Char) = none ∧ parent ['/'] = none := by
  refine ⟨?_, ?_, by decide, by decide⟩
  · intro h
    simp [PathBufD.pop, h]
  · intro t h
    obtain ⟨⟨u, hu⟩, hlen⟩ := parent_spec _ _ h
    refine ⟨?_, hlen⟩
    simp only [PathBufD.pop, h]
    rw [append_eq_take _ _ _ hu]

/-- Witness for C5 at the concrete buffer "a/b", whose parent is "a". -/
theorem claim_C5_witness :
    PathBufD.pop ⟨['a', '/', 'b']⟩ = (true, ⟨['a']⟩) ∧
    (['a'] : List Char).length < (['a', '/', 'b'] : List Char).length :=
  ⟨((claim_C5 ⟨['a', '/', 'b']⟩).2.1 ['a'] (by decide)).1,
   ((claim_C5 ⟨['a', '/', 'b']⟩).2.1 ['a'] (by decide)).2⟩

/-- C6: join returns the buffer a copy of p would hold after push(s); in
this pure embedding the receiver is never mutated, so p itself is
unchanged. -/
theorem claim_C6 (p : PathBufD) (s : List Char) :
    PathBufD.join p s = PathBufD.push p s := rfl

/-- C7: extend is repeated push: extending p with a sequence of segments
pushes each element of the sequence in order onto (a copy of) p. -/
theorem claim_C7 (p : PathBufD) (l : List (List Char)) :
    PathBufD.extend p l = l.foldl PathBufD.push p := by
  induction l generalizing p with
  | nil => rfl
  | cons x xs ih =>
    rw [List.foldl_cons, ← ih (p.push x)]
    rfl

/-- C8: current never surfaces an error: a successful working-directory
query becomes the buffer, and any failure degrades to the empty buffer. -/
theorem claim_C8 {ε : Type} (r : Except ε (List Char)) :
    (∀ d, r = .ok d → current r = ⟨d⟩) ∧
    (∀ e, r = .error e → current r = PathBufD.new) := by
  constructor
  · intro d h
    subst h
    rfl
  · intro e h
    subst h
    rfl

/-- Witness for C8: a failed query gives the empty buffer, a successful one
gives its result. -/
theorem claim_C8_witness :
    current (Except.error () : Except Unit (List Char)) = PathBufD.new ∧
    current (Except.ok ['a'] : Except Unit (List Char)) = ⟨['a']⟩ :=
  ⟨(claim_C8 (Except.error () : Except Unit (List Char))).2 () rfl,
   (claim_C8 (Except.ok ['a'] : Except Unit (List Char))).1 ['a'] rfl⟩

/-- C9: when the allocator cannot satisfy any request and the reservation
does not already fit, try_reserve and try_reserve_exact return the
recoverable error value instead of diverging, and neither operation ever
changes the buffer's content in any outcome. -/
theorem claim_C9 (p : PathBufCap) (n : Nat) (alloc : Nat → Option Nat)
    (hfail : ∀ m, alloc m = none) (hneed : p.cap < p.content.length + n) :
    PathBufCap.try_reserve p n alloc = .error .allocError ∧
    PathBufCap.try_reserve_exact p n alloc = .error .allocError ∧
    (∀ (a : Nat → Option Nat) (q : PathBufCap),
      PathBufCap.try_reserve p n a = .ok q → q.content = p.content) ∧
    (∀ (a : Nat → Option Nat) (q : PathBufCap),
      PathBufCap.try_reserve_exact p n a = .ok q → q.content = p.content) := by
  have hn : ¬(p.content.length + n ≤ p.cap) := by omega
  refine ⟨?_, ?_, ?_, ?_⟩
  · simp [PathBufCap.try_reserve, hn, hfail]
  · simp [PathBufCap.try_reserve_exact, hn, hfail]
  · intro a q h
    unfold PathBufCap.try_reserve at h
    split at h
    · injection h with h
      subst h
      rfl
    · split at h
      · injection h with h
        subst h
        rfl
      · exact Except.noConfusion h
  · intro a q h
    unfold PathBufCap.try_reserve_exact at h
    split at h
    · injection h with h
      subst h
      rfl
    · split at h
      · injection h with h
        subst h
        rfl
      · exact Except.noConfusion h

/-- Witness for C9: reserving 5 more units on a one-byte buffer of capacity
1 under an always-failing allocator errors recoverably in both variants. -/
theorem claim_C9_witness :
    PathBufCap.try_reserve ⟨['a'], 1⟩ 5 (fun _ => none) =
      .error .allocError ∧
    PathBufCap.try_reserve_exact ⟨['a'], 1⟩ 5 (fun _ => none) =
      .error .allocError :=
  ⟨(claim_C9 ⟨['a'], 1⟩ 5 (fun _ => none) (fun _ => rfl) (by decide)).1,
   (claim_C9 ⟨['a'], 1⟩ 5 (fun _ => none) (fun _ => rfl) (by decide)).2.1⟩

/-- C10: clear empties the logical content - as_path afterwards is the
empty path - while leaving capacity unchanged. -/
theorem claim_C10 (p : PathBufCap) :
    PathBufCap.as_path (PathBufCap.clear p) = [] ∧
    PathBufCap.capacity (PathBufCap.clear p) = PathBufCap.capacity p :=
  ⟨rfl, rfl⟩
